import Mathlib

/-!
Verification of the bounded-concurrency disk-usage scheduler in
src/disk_usage.js (repository panta82/disk-read-experiment).

The development is a shallow embedding of the diskUsage function.  The
filesystem is modelled as an immutable tree of nodes (file / dir / other);
a path is the list of entry names from the root.  The scheduler state
(queue, activeCount, completed flag, the result record, and the
single-resolution outcome slot) is an explicit structure; the JS functions
tick, statOp and readOp become Lean functions over that structure.

The tick function of the source is synchronously recursive and, for some
inputs, genuinely non-terminating (it keeps popping an empty queue), so it
is embedded with explicit fuel: a none result means the recursion did not
finish within the given fuel, and a result that is none for every fuel is a
true divergence (in the JS runtime: a stack overflow).

Asynchronous task completion is modelled by an explicit schedule: the
in-flight tasks are kept in a list and a schedule (a list of indices) picks
which in-flight task completes next.  A launched task whose work item is
undefined (the source pops an empty array, obtaining undefined, and then
calls op.exec which throws a TypeError) is represented by Job.undef.
-/


mutual

/-- A filesystem node: a regular file with a byte size, a directory with a
named entry list, or any other entry kind (symlink, device, socket ...),
which the source counts in neither total. -/
inductive FsNode where
  | file (size : Nat)
  | dir (entries : Entries)
  | other

inductive Entries where
  | nil
  | cons (name : String) (node : FsNode) (rest : Entries)

end

/-- Look up a direct child by name, first match wins (fs.stat of a child
path produced by readdir). -/
def findEntry : Entries → String → Option FsNode
  | Entries.nil, _ => none
  | Entries.cons n c rest, name => if name == n then some c else findEntry rest name

/-- Resolve a path (list of entry names) against a tree. -/
def lookup : FsNode → List String → Option FsNode
  | t, [] => some t
  | FsNode.dir es, n :: rest =>
    match findEntry es n with
    | some c => lookup c rest
    | none => none
  | FsNode.file _, _ :: _ => none
  | FsNode.other, _ :: _ => none

/-- Number of entries in a directory listing (files.length in readOp). -/
def entriesLength : Entries → Nat
  | Entries.nil => 0
  | Entries.cons _ _ rest => entriesLength rest + 1

/-- A name is among the keys of an entry list. -/
def keyMem (name : String) : Entries → Bool
  | Entries.nil => false
  | Entries.cons n _ rest => name == n || keyMem name rest

/-- Entry names of a directory listing are pairwise distinct (true of any
real filesystem directory). -/
def keysNodup : Entries → Bool
  | Entries.nil => true
  | Entries.cons n _ rest => !keyMem n rest && keysNodup rest

mutual

/-- Well-formed tree: every directory listing has pairwise distinct names. -/
def wf : FsNode → Bool
  | FsNode.file _ => true
  | FsNode.other => true
  | FsNode.dir es => keysNodup es && wfEntries es

def wfEntries : Entries → Bool
  | Entries.nil => true
  | Entries.cons _ c rest => wf c && wfEntries rest

end

/-- Aggregate totals of a tree: file count, directory count (the root dir
itself included), cumulative file size. -/
structure Totals where
  files : Nat
  directories : Nat
  size : Nat
deriving DecidableEq

def Totals.add (a b : Totals) : Totals :=
  { files := a.files + b.files
    directories := a.directories + b.directories
    size := a.size + b.size }

mutual

def totals : FsNode → Totals
  | FsNode.file sz => { files := 1, directories := 0, size := sz }
  | FsNode.other => { files := 0, directories := 0, size := 0 }
  | FsNode.dir es =>
    { files := (totalsEntries es).files
      directories := (totalsEntries es).directories + 1
      size := (totalsEntries es).size }

def totalsEntries : Entries → Totals
  | Entries.nil => { files := 0, directories := 0, size := 0 }
  | Entries.cons _ c rest => Totals.add (totals c) (totalsEntries rest)

end

/-- A work item of the queue: statOp or readOp, each carrying a path
(source: queue.push with exec either statOp or readOp). -/
inductive Op where
  | statOp (path : List String)
  | readOp (path : List String)
deriving DecidableEq

/-- An in-flight launched task.  Job.undef models the launch performed when
the source pops an empty queue: op is undefined and the scheduled
op.exec(op) throws a TypeError. -/
inductive Job where
  | job (o : Op)
  | undef
deriving DecidableEq

/-- Errors a run can reject with: a filesystem error of asyncStat or
asyncReaddir at a path, or the TypeError raised by executing an undefined
work item. -/
inductive DuError where
  | fsError (path : List String)
  | typeError
deriving DecidableEq

/-- The caller-visible part of the DiskUsageReport record (path and the two
Date timestamps are not modelled; maxActive is declared by the source and
never updated, so it is always 0). -/
structure Report where
  parallelism : Nat
  maxActive : Nat
  size : Nat
  files : Nat
  directories : Nat
deriving DecidableEq

/-- Sum view of Except, used to derive decidable equality. -/
def exceptToSum {ε α : Type} : Except ε α → Sum ε α
  | Except.error e => Sum.inl e
  | Except.ok a => Sum.inr a

instance {ε α : Type} [DecidableEq ε] [DecidableEq α] : DecidableEq (Except ε α) :=
  fun x y =>
    decidable_of_iff (exceptToSum x = exceptToSum y)
      (by cases x <;> cases y <;> simp [exceptToSum])

/-- One debugLog invocation: operation kind, path, info string. -/
structure LogEntry where
  op : String
  path : List String
  info : String
deriving DecidableEq

/-- The mutable state of one diskUsage invocation: the pending queue, the
in-flight tasks with the activeCount counter, the completed flag, the
single-resolution outcome slot, the running aggregate counters of the
result record, and the trace of debugLog calls. -/
structure SchedState where
  queue : List Op
  inflight : List Job
  active : Int
  completed : Bool
  outcome : Option (Except DuError Report)
  files : Nat
  directories : Nat
  size : Nat
  log : List LogEntry
deriving DecidableEq

/-- Initial state: enqueueStat(path) seeds the queue with one stat of the
root (modelled as path []), nothing launched, nothing resolved. -/
def initState : SchedState :=
  { queue := [Op.statOp []]
    inflight := []
    active := 0
    completed := false
    outcome := none
    files := 0
    directories := 0
    size := 0
    log := [] }

/-- Remove the last element of a list (JS Array.prototype.pop on the
queue); none when the list is empty (JS: undefined). -/
def popLast {α : Type} : List α → Option (List α × α)
  | [] => none
  | [a] => some ([], a)
  | a :: b :: rest =>
    match popLast (b :: rest) with
    | some (init, x) => some (a :: init, x)
    | none => none

/-- Execute a work item against the (frozen) filesystem, applying its
effects to the state exactly as the source does after the awaited call
returns: statOp increments directories and enqueues a readOp for a
directory, increments files and size for a regular file, does nothing for
other kinds; readOp enqueues one statOp per child entry.  A failed
asyncStat or asyncReaddir makes the whole task fail with no effects (the
await is the first thing each op does).  The fs argument is none when the
root path itself does not exist.  The dbg flag tells whether a debugLog
callback was supplied; when it is, the call is recorded in the log. -/
def execOp (fs : Option FsNode) (dbg : Bool) : Op → SchedState → Except DuError SchedState
  | Op.statOp p, s =>
    match fs.bind (fun t => lookup t p) with
    | none => Except.error (DuError.fsError p)
    | some (FsNode.dir _) =>
      Except.ok
        { s with
          directories := s.directories + 1
          queue := s.queue ++ [Op.readOp p]
          log := if dbg then s.log ++ [{ op := "STAT", path := p, info := "DIR" }] else s.log }
    | some (FsNode.file sz) =>
      Except.ok
        { s with
          files := s.files + 1
          size := s.size + sz
          log :=
            if dbg then s.log ++ [{ op := "STAT", path := p, info := toString sz ++ " bytes" }]
            else s.log }
    | some FsNode.other =>
      Except.ok
        { s with
          log := if dbg then s.log ++ [{ op := "STAT", path := p, info := "---" }] else s.log }
  | Op.readOp p, s =>
    match fs.bind (fun t => lookup t p) with
    | some (FsNode.dir es) =>
      Except.ok
        { s with
          log :=
            if dbg then
              s.log ++ [{ op := "READ", path := p, info := toString (entriesLength es) ++ " items" }]
            else s.log
          queue := s.queue ++ statsOf p es }
    | _ => Except.error (DuError.fsError p)
where
  /-- The statOp items readOp enqueues, one per directory entry, in listing
  order, each with the child path resolved against the parent path. -/
  statsOf (p : List String) : Entries → List Op
    | Entries.nil => []
    | Entries.cons n _ rest => Op.statOp (p ++ [n]) :: statsOf p rest

/-- The tick step function of the source, with explicit fuel for its
synchronous self-recursion.  In order: the completed guard; the
back-pressure guard (parallelism nonzero and at or above activeCount); the
completion check (no active task, empty queue: resolve with the final
report); otherwise pop the queue (popping an empty queue launches an
undefined item, exactly as queue.pop() yields undefined in the source),
increment activeCount, record the launched job, and immediately tick
again. -/
def tick (limit : Nat) : Nat → SchedState → Option SchedState
  | 0, _ => none
  | fuel + 1, s =>
    if s.completed then some s
    else if limit ≠ 0 ∧ (limit : Int) ≤ s.active then some s
    else if s.active = 0 ∧ s.queue = [] then
      some
        { s with
          completed := true
          outcome :=
            some
              (Except.ok
                { parallelism := limit
                  maxActive := 0
                  size := s.size
                  files := s.files
                  directories := s.directories }) }
    else
      match popLast s.queue with
      | none =>
        tick limit fuel
          { s with active := s.active + 1, inflight := s.inflight ++ [Job.undef] }
      | some (rest, o) =>
        tick limit fuel
          { s with
            queue := rest
            active := s.active + 1
            inflight := s.inflight ++ [Job.job o] }

/-- The failure handler of a launched task: decrement activeCount, and
when not already completed, set the flag and reject the outcome with the
error (first error wins; later failures are discarded, and no tick is
performed). -/
def failJob (e : DuError) (s : SchedState) : SchedState :=
  if s.completed then { s with active := s.active - 1 }
  else
    { s with
      active := s.active - 1
      completed := true
      outcome := some (Except.error e) }

/-- Completion of the in-flight task at index i, as the source's promise
handlers: on success, apply the op's effects (they happened inside exec),
decrement activeCount and tick again; on failure (or for an undefined item,
whose exec throws TypeError), run the failure handler - no tick.  The
tickFuel argument bounds the synchronous tick recursion performed by the
success handler. -/
def completeJob (fs : Option FsNode) (limit : Nat) (dbg : Bool) (tickFuel : Nat)
    (s : SchedState) (i : Nat) : Option SchedState :=
  match s.inflight.get? i with
  | none => none
  | some Job.undef =>
    some (failJob DuError.typeError { s with inflight := s.inflight.eraseIdx i })
  | some (Job.job o) =>
    match execOp fs dbg o { s with inflight := s.inflight.eraseIdx i } with
    | Except.ok s₂ => tick limit tickFuel { s₂ with active := s₂.active - 1 }
    | Except.error e => some (failJob e { s with inflight := s.inflight.eraseIdx i })

/-- Run a schedule: each entry picks which in-flight task completes next. -/
def drive (fs : Option FsNode) (limit : Nat) (dbg : Bool) (tickFuel : Nat) :
    List Nat → SchedState → Option SchedState
  | [], s => some s
  | c :: cs, s =>
    match completeJob fs limit dbg tickFuel s c with
    | none => none
    | some s' => drive fs limit dbg tickFuel cs s'

/-- A full diskUsage invocation: seed the queue with a stat of the root,
tick once, then let in-flight tasks complete in schedule order. -/
def diskUsage (fs : Option FsNode) (limit : Nat) (dbg : Bool) (tickFuel : Nat)
    (sched : List Nat) : Option SchedState :=
  match tick limit tickFuel initState with
  | none => none
  | some s => drive fs limit dbg tickFuel sched s

/-- The outcome slot of the final state of a run. -/
def finalOutcome (s : Option SchedState) : Option (Option (Except DuError Report)) :=
  s.map (fun st => st.outcome)

/-- A tree holding a single file of 100 bytes: dir containing a: file(100). -/
def tree0 : FsNode := FsNode.dir (Entries.cons "a" (FsNode.file 100) Entries.nil)

/-- The listing of a tree with one regular file of 100 bytes and one empty
subdirectory. -/
def tree6Entries : Entries :=
  Entries.cons "f" (FsNode.file 100)
    (Entries.cons "d" (FsNode.dir Entries.nil) Entries.nil)

/-- A tree with one regular file of 100 bytes and one empty subdirectory. -/
def tree6 : FsNode := FsNode.dir tree6Entries

/-- The state reached right after the initial tick launches the root stat
with limit 2 or 0: the stat is in flight, the queue is empty, the outcome
is unresolved.  This is the state on which the source's tick pops the
empty queue. -/
def stuckState : SchedState :=
  { queue := []
    inflight := [Job.job (Op.statOp [])]
    active := 1
    completed := false
    outcome := none
    files := 0
    directories := 0
    size := 0
    log := [] }

/-- One asynchronous event: some in-flight task completes (with some tick
fuel for the synchronous recursion its success handler performs). -/
def stepOk (fs : Option FsNode) (limit : Nat) (dbg : Bool) (s s' : SchedState) : Prop :=
  ∃ tickFuel c, completeJob fs limit dbg tickFuel s c = some s'

/-- Reachability between scheduler states by task-completion events. -/
inductive Reaches (fs : Option FsNode) (limit : Nat) (dbg : Bool) :
    SchedState → SchedState → Prop
  | refl (s : SchedState) : Reaches fs limit dbg s s
  | tail {s s' s'' : SchedState} :
      Reaches fs limit dbg s s' → stepOk fs limit dbg s' s'' → Reaches fs limit dbg s s''

/-- Bookkeeping invariant of the scheduler: activeCount equals the number
of in-flight tasks (every decrement is paired with a prior increment);
when the ceiling is positive, activeCount never exceeds it; and the
completed flag is set exactly when the outcome slot has been written. -/
def schedInv (limit : Nat) (s : SchedState) : Prop :=
  s.active = (s.inflight.length : Int) ∧
  (limit ≠ 0 → s.active ≤ (limit : Int)) ∧
  (s.completed = true ↔ s.outcome ≠ none)

instance (limit : Nat) (s : SchedState) : Decidable (schedInv limit s) := by
  unfold schedInv
  infer_instance

/-- The final state of the parallelism-1 run on the one-file tree:
everything drained, outcome resolved with the report. -/
def doneState : SchedState :=
  { queue := []
    inflight := []
    active := 0
    completed := true
    outcome :=
      some (Except.ok { parallelism := 1, maxActive := 0, size := 100, files := 1, directories := 1 })
    files := 1
    directories := 1
    size := 100
    log := [] }

/-- The state after the root stat fails on a missing root at parallelism 1:
outcome rejected with the stat error. -/
def failedState : SchedState :=
  { queue := []
    inflight := []
    active := 0
    completed := true
    outcome := some (Except.error (DuError.fsError []))
    files := 0
    directories := 0
    size := 0
    log := [] }

/-- Invariant of a run against a missing root: while the outcome is
unresolved there is still work queued or in flight (so the success
resolution of tick can never fire), and the outcome never holds a
report. -/
def noOkInv (s : SchedState) : Prop :=
  (s.outcome = none → s.queue ≠ [] ∨ s.inflight ≠ []) ∧
  ∀ r : Report, s.outcome ≠ some (Except.ok r)

/-- Erase the observability trace from a state: two states equal after
erasure differ at most in their debugLog history. -/
def eraseLog (s : SchedState) : SchedState := { s with log := [] }

/-- A work item is valid against tree t when its path resolves (statOp) and,
for readOp, resolves to a directory.  Every item the scheduler ever
enqueues against an existing root is valid: readOps are enqueued only
after their path statted as a directory, and statOps only for listed
children. -/
def validOp (t : FsNode) : Op → Bool
  | Op.statOp p => (lookup t p).isSome
  | Op.readOp p =>
    match lookup t p with
    | some (FsNode.dir _) => true
    | _ => false

def validQueue (t : FsNode) (q : List Op) : Bool := q.all (validOp t)

/-- The totals a queued item will eventually contribute once it and all the
follow-up items it transitively enqueues have completed. -/
def opYield (t : FsNode) : Op → Totals
  | Op.statOp p =>
    match lookup t p with
    | some u => totals u
    | none => { files := 0, directories := 0, size := 0 }
  | Op.readOp p =>
    match lookup t p with
    | some (FsNode.dir es) => totalsEntries es
    | _ => { files := 0, directories := 0, size := 0 }

def queueYield (t : FsNode) : List Op → Totals
  | [] => { files := 0, directories := 0, size := 0 }
  | o :: rest => Totals.add (opYield t o) (queueYield t rest)

mutual

/-- Number of task completions triggered by statting a node: one for the
stat itself, plus (for a directory) one for the read and the counts of all
children. -/
def nodeW : FsNode → Nat
  | FsNode.file _ => 1
  | FsNode.other => 1
  | FsNode.dir es => 2 + entriesW es

def entriesW : Entries → Nat
  | Entries.nil => 0
  | Entries.cons _ c rest => nodeW c + entriesW rest

end

/-- Number of task completions a queued item will eventually trigger. -/
def opW (t : FsNode) : Op → Nat
  | Op.statOp p =>
    match lookup t p with
    | some u => nodeW u
    | none => 1
  | Op.readOp p =>
    match lookup t p with
    | some (FsNode.dir es) => 1 + entriesW es
    | _ => 1

def queueW (t : FsNode) : List Op → Nat
  | [] => 0
  | o :: rest => opW t o + queueW t rest

/-- Each entry of an entry list is found (at its own node) by findEntry in
the listing es. -/
def allFound (es : Entries) : Entries → Prop
  | Entries.nil => True
  | Entries.cons n c rest => findEntry es n = some c ∧ allFound es rest

/-- Each entry of an entry list resolves, below path p, to its own node. -/
def entriesFound (t : FsNode) (p : List String) : Entries → Prop
  | Entries.nil => True
  | Entries.cons n c rest => lookup t (p ++ [n]) = some c ∧ entriesFound t p rest

/-- Induction principle for the entry-list type alone (its native recursor
is the mutual one with FsNode). -/
def entriesInduction {motive : Entries → Prop} (hnil : motive Entries.nil)
    (hcons : ∀ n c rest, motive rest → motive (Entries.cons n c rest)) :
    (es : Entries) → motive es
  | Entries.nil => hnil
  | Entries.cons n c rest => hcons n c rest (entriesInduction hnil hcons rest)

/-- With limit 0, tick called on a state with an empty queue, an unresolved
outcome and at least one active task never returns, for any fuel: it keeps
popping the empty queue and incrementing activeCount (in the JS runtime
this synchronous recursion is a stack overflow). -/
theorem tick_zero_diverges (fuel : Nat) (s : SchedState) (hq : s.queue = [])
    (hc : s.completed = false) (ha : 1 ≤ s.active) : tick 0 fuel s = none := by
  induction fuel generalizing s with
  | zero => rfl
  | succ n ih =>
    rw [tick]
    rw [if_neg (by rw [hc]; simp)]
    rw [if_neg (by simp)]
    rw [if_neg (by rintro ⟨h1, _⟩; omega)]
    rw [hq]
    simp only [popLast]
    exact ih _ rfl hc (by simp; omega)

/-- With limit 0, the very first tick of a run never returns for any fuel:
it launches the root stat and then keeps popping the empty queue. -/
theorem tick_zero_init (fuel : Nat) : tick 0 fuel initState = none := by
  cases fuel with
  | zero => rfl
  | succ n =>
    rw [tick]
    rw [if_neg (by simp [initState])]
    rw [if_neg (by simp)]
    rw [if_neg (by simp [initState])]
    rw [show initState.queue = [Op.statOp []] from rfl]
    simp only [popLast]
    exact tick_zero_diverges n _ rfl rfl (by simp [initState])

/-- C1: the claim says that a tick invoked while the outcome is unresolved,
the queue is empty and activeCount is positive (ceiling not binding) stops
without removing anything and leaves the state unchanged.  The code does
not: on stuckState (root stat in flight, queue empty) with limit 0 the tick
recursion never returns for any fuel, and with limit 2 it launches an
undefined work item popped from the empty queue, incrementing activeCount
to 2 instead of leaving the state unchanged. -/
theorem c1_tick_pops_empty_queue :
    (∀ fuel, tick 0 fuel stuckState = none) ∧
    tick 2 5 stuckState =
      some { stuckState with active := 2, inflight := stuckState.inflight ++ [Job.undef] } ∧
    { stuckState with active := 2, inflight := stuckState.inflight ++ [Job.undef] } ≠
      stuckState := by
  refine ⟨fun fuel => tick_zero_diverges fuel stuckState rfl rfl (by decide), by decide, by decide⟩

/-- C2: the claim says every concurrency limit yields the same aggregate.
On the one-file tree, limit 1 resolves with the report (files 1,
directories 1, size 100) while limit 2 rejects with the TypeError raised by
executing the undefined item popped from the empty queue, so the outcome is
not limit-independent. -/
theorem c2_limits_disagree :
    finalOutcome (diskUsage (some tree0) 1 false 2 [0, 0, 0]) =
      some (some (Except.ok
        { parallelism := 1, maxActive := 0, size := 100, files := 1, directories := 1 })) ∧
    finalOutcome (diskUsage (some tree0) 2 false 3 [1]) =
      some (some (Except.error DuError.typeError)) := by
  exact ⟨rfl, rfl⟩

/-- C3: the claim says every run on a finite tree resolves successfully
with the final Report.  With limit 0 the initial tick never returns for any
fuel (a stack overflow in the JS runtime), and with limit 2 the run
rejects with a TypeError; only limit 1 resolves with a Report. -/
theorem c3_run_diverges_or_rejects :
    (∀ fuel dbg sched, diskUsage (some tree0) 0 dbg fuel sched = none) ∧
    finalOutcome (diskUsage (some tree0) 2 false 3 [1, 0]) =
      some (some (Except.error DuError.typeError)) := by
  constructor
  · intro fuel dbg sched
    unfold diskUsage
    rw [tick_zero_init]
  · rfl

/-- C6 counterexample: on the tree with one 100-byte file and one empty
subdirectory, the successful run (limit 1) reports directories = 2 (the
root is counted by the seeding stat), not 1 as the claim states. -/
theorem c6_counterexample :
    finalOutcome (diskUsage (some tree6) 1 false 2 [0, 0, 0, 0, 0]) =
      some (some (Except.ok
        { parallelism := 1, maxActive := 0, size := 100, files := 1, directories := 2 })) ∧
    ({ parallelism := 1, maxActive := 0, size := 100, files := 1, directories := 2 } : Report).directories ≠ 1 := by
  exact ⟨rfl, by decide⟩

/-- C6 amended: on the tree with one 100-byte file and one empty
subdirectory, the successful run returns a Report with files = 1,
directories = 2 (the root directory itself is counted) and size = 100. -/
theorem c6_amended_report :
    finalOutcome (diskUsage (some tree6) 1 false 2 [0, 0, 0, 0, 0]) =
      some (some (Except.ok
        { parallelism := 1, maxActive := 0, size := 100, files := 1, directories := 2 })) := by
  exact rfl

/-- A tick of a completed run is a no-op returning the state unchanged. -/
theorem tick_completed {limit fuel : Nat} {s s' : SchedState} (hc : s.completed = true)
    (h : tick limit fuel s = some s') : s' = s := by
  cases fuel with
  | zero => cases h
  | succ n =>
    rw [tick, if_pos hc] at h
    cases h
    rfl

/-- tick preserves the bookkeeping invariant. -/
theorem tick_schedInv {limit fuel : Nat} {s s' : SchedState} (hinv : schedInv limit s)
    (h : tick limit fuel s = some s') : schedInv limit s' := by
  induction fuel generalizing s with
  | zero => cases h
  | succ n ih =>
    rw [tick] at h
    by_cases hc : s.completed = true
    · rw [if_pos hc] at h
      cases h
      exact hinv
    · rw [if_neg hc] at h
      by_cases hl : limit ≠ 0 ∧ (limit : Int) ≤ s.active
      · rw [if_pos hl] at h
        cases h
        exact hinv
      · rw [if_neg hl] at h
        by_cases hd : s.active = 0 ∧ s.queue = []
        · rw [if_pos hd] at h
          cases h
          refine ⟨hinv.1, hinv.2.1, by simp⟩
        · rw [if_neg hd] at h
          obtain ⟨h1, h2, h3⟩ := hinv
          have hbound : limit ≠ 0 → s.active + 1 ≤ (limit : Int) := by
            intro hl0
            have : ¬((limit : Int) ≤ s.active) := fun hle => hl ⟨hl0, hle⟩
            omega
          split at h <;> exact ih ⟨by simp [h1], hbound, by simpa using h3⟩ h

/-- A successful op execution only appends to the queue, updates the
counters and the log; it never touches the in-flight bookkeeping, the
completed flag or the outcome slot. -/
theorem execOp_frame {fs : Option FsNode} {dbg : Bool} {o : Op} {s s₂ : SchedState}
    (h : execOp fs dbg o s = Except.ok s₂) :
    s₂.inflight = s.inflight ∧ s₂.active = s.active ∧ s₂.completed = s.completed ∧
    s₂.outcome = s.outcome ∧ ∃ ext, s₂.queue = s.queue ++ ext := by
  cases o with
  | statOp p =>
    rcases hfb : fs.bind (fun t => lookup t p) with _ | nd
    · simp only [execOp, hfb] at h
      cases h
    · cases nd with
      | file sz =>
        simp only [execOp, hfb] at h
        cases h
        exact ⟨rfl, rfl, rfl, rfl, [], by simp⟩
      | dir es =>
        simp only [execOp, hfb] at h
        cases h
        exact ⟨rfl, rfl, rfl, rfl, [Op.readOp p], rfl⟩
      | other =>
        simp only [execOp, hfb] at h
        cases h
        exact ⟨rfl, rfl, rfl, rfl, [], by simp⟩
  | readOp p =>
    rcases hfb : fs.bind (fun t => lookup t p) with _ | nd
    · simp only [execOp, hfb] at h
      cases h
    · cases nd with
      | file sz =>
        simp only [execOp, hfb] at h
        cases h
      | dir es =>
        simp only [execOp, hfb] at h
        cases h
        exact ⟨rfl, rfl, rfl, rfl, execOp.statsOf p es, rfl⟩
      | other =>
        simp only [execOp, hfb] at h
        cases h

/-- completeJob preserves the bookkeeping invariant. -/
theorem completeJob_schedInv {fs : Option FsNode} {limit : Nat} {dbg : Bool} {tf c : Nat}
    {s s' : SchedState} (hinv : schedInv limit s)
    (h : completeJob fs limit dbg tf s c = some s') : schedInv limit s' := by
  obtain ⟨h1, h2, h3⟩ := hinv
  unfold completeJob at h
  have hfail : ∀ e, schedInv limit (failJob e { s with inflight := s.inflight.eraseIdx c }) →
      True := fun _ _ => trivial
  split at h
  · cases h
  · rename_i hget
    have hlt : c < s.inflight.length := (List.get?_eq_some.mp hget).1
    have herase : (s.inflight.eraseIdx c).length = s.inflight.length - 1 := by
      have := List.length_eraseIdx_add_one hlt
      omega
    cases h
    unfold failJob
    by_cases hc : s.completed = true
    · rw [if_pos hc]
      exact ⟨by simp [herase, h1]; omega, fun hl => by simp; have := h2 hl; omega,
        by simpa using h3⟩
    · rw [if_neg hc]
      exact ⟨by simp [herase, h1]; omega, fun hl => by simp; have := h2 hl; omega, by simp⟩
  · rename_i o hget
    have hlt : c < s.inflight.length := (List.get?_eq_some.mp hget).1
    have herase : (s.inflight.eraseIdx c).length = s.inflight.length - 1 := by
      have := List.length_eraseIdx_add_one hlt
      omega
    split at h
    · rename_i s₂ hexec
      obtain ⟨f1, f2, f3, f4, _⟩ := execOp_frame hexec
      apply tick_schedInv _ h
      refine ⟨?_, ?_, ?_⟩
      · simp only [f1, f2]
        simp [herase, h1]
        omega
      · intro hl
        simp only [f2]
        simp
        have := h2 hl
        omega
      · simpa [f3, f4] using h3
    · cases h
      unfold failJob
      by_cases hc : s.completed = true
      · rw [if_pos hc]
        exact ⟨by simp [herase, h1]; omega, fun hl => by simp; have := h2 hl; omega,
          by simpa using h3⟩
      · rw [if_neg hc]
        exact ⟨by simp [herase, h1]; omega, fun hl => by simp; have := h2 hl; omega, by simp⟩

/-- Once completed, any further task completion leaves the completed flag
and the outcome untouched: it only drops the task from the in-flight set,
decrements activeCount, and may append leftover follow-up items to the
queue (which are never launched, since tick is a no-op when completed). -/
theorem completeJob_completed {fs : Option FsNode} {limit : Nat} {dbg : Bool} {tf i : Nat}
    {s s' : SchedState} (hc : s.completed = true)
    (h : completeJob fs limit dbg tf s i = some s') :
    s'.completed = true ∧ s'.outcome = s.outcome ∧ s'.active = s.active - 1 ∧
    (∃ ext, s'.queue = s.queue ++ ext) ∧ s'.inflight.length + 1 = s.inflight.length := by
  unfold completeJob at h
  split at h
  · cases h
  · rename_i hget
    have hlt : i < s.inflight.length := (List.get?_eq_some.mp hget).1
    have herase : (s.inflight.eraseIdx i).length = s.inflight.length - 1 := by
      have := List.length_eraseIdx_add_one hlt
      omega
    cases h
    unfold failJob
    rw [if_pos hc]
    exact ⟨hc, rfl, rfl, ⟨[], by simp⟩, by simp [herase]; omega⟩
  · rename_i o hget
    have hlt : i < s.inflight.length := (List.get?_eq_some.mp hget).1
    have herase : (s.inflight.eraseIdx i).length = s.inflight.length - 1 := by
      have := List.length_eraseIdx_add_one hlt
      omega
    split at h
    · rename_i s₂ hexec
      obtain ⟨f1, f2, f3, f4, ext, f5⟩ := execOp_frame hexec
      have hc₂ : ({ s₂ with active := s₂.active - 1 } : SchedState).completed = true := by
        simpa [f3] using hc
      have := tick_completed hc₂ h
      subst this
      refine ⟨hc₂, by simpa using f4, by simp [f2], ⟨ext, by simpa using f5⟩, ?_⟩
      simp [f1, herase]
      omega
    · rename_i e hexec
      cases h
      unfold failJob
      rw [if_pos hc]
      exact ⟨hc, rfl, rfl, ⟨[], by simp⟩, by simp [herase]; omega⟩

/-- The bookkeeping invariant is preserved along any sequence of
task-completion events. -/
theorem reaches_schedInv {fs : Option FsNode} {limit : Nat} {dbg : Bool}
    {s s' : SchedState} (hinv : schedInv limit s) (h : Reaches fs limit dbg s s') :
    schedInv limit s' := by
  induction h with
  | refl => exact hinv
  | tail _ hstep ih =>
    obtain ⟨tf, c, hc⟩ := hstep
    exact completeJob_schedInv ih hc

/-- C4: the outcome slot is single-resolution.  From any state of a run
satisfying the bookkeeping invariant whose outcome has been resolved with
r, every later state - after any sequence of task completions - still
holds exactly r, the completed flag stays set, and any step (tick)
invocation is a no-op returning the state unchanged. -/
theorem c4_outcome_resolved_once (fs : Option FsNode) (limit : Nat) (dbg : Bool)
    (s s' : SchedState) (r : Except DuError Report) (hinv : schedInv limit s)
    (hr : s.outcome = some r) (h : Reaches fs limit dbg s s') :
    s'.outcome = some r ∧ s'.completed = true ∧ ∀ fuel, tick limit (fuel + 1) s' = some s' := by
  have key : s'.outcome = some r ∧ s'.completed = true := by
    induction h with
    | refl =>
      exact ⟨hr, hinv.2.2.mpr (by simp [hr])⟩
    | tail hre hstep ih =>
      obtain ⟨tf, c, hc⟩ := hstep
      obtain ⟨ho, hcm⟩ := ih
      obtain ⟨g1, g2, _, _, _⟩ := completeJob_completed hcm hc
      exact ⟨g2.trans ho, g1⟩
  refine ⟨key.1, key.2, fun fuel => ?_⟩
  rw [tick, if_pos key.2]

/-- Witness for C4 at the concrete resolved state doneState. -/
theorem c4_witness :
    doneState.outcome =
      some (Except.ok { parallelism := 1, maxActive := 0, size := 100, files := 1, directories := 1 }) ∧
    doneState.completed = true ∧ tick 1 5 doneState = some doneState := by
  have h := c4_outcome_resolved_once (some tree0) 1 false doneState doneState
    (Except.ok { parallelism := 1, maxActive := 0, size := 100, files := 1, directories := 1 })
    (by decide) rfl (Reaches.refl doneState)
  exact ⟨h.1, h.2.1, h.2.2 4⟩

/-- C5: activeCount is never negative, always equals the number of
in-flight tasks (each decrement is paired with a prior increment), and
with a positive ceiling never exceeds it: the initial tick establishes the
bookkeeping invariant from the seeded state, and it is maintained by every
subsequent task-completion event. -/
theorem c5_active_bounds :
    (∀ limit fuel s₀, tick limit fuel initState = some s₀ → schedInv limit s₀) ∧
    (∀ fs limit dbg s s', schedInv limit s → Reaches fs limit dbg s s' →
      0 ≤ s'.active ∧ (limit ≠ 0 → s'.active ≤ (limit : Int)) ∧
      s'.active = (s'.inflight.length : Int)) := by
  constructor
  · intro limit fuel s₀ h
    exact tick_schedInv ⟨by simp [initState], by simp [initState], by simp [initState]⟩ h
  · intro fs limit dbg s s' hinv h
    obtain ⟨h1, h2, h3⟩ := reaches_schedInv hinv h
    exact ⟨by rw [h1]; exact Int.ofNat_nonneg _, h2, h1⟩

/-- Witness for C5 at the state right after the root stat is launched. -/
theorem c5_witness :
    0 ≤ stuckState.active ∧ ((1 : Nat) ≠ 0 → stuckState.active ≤ ((1 : Nat) : Int)) ∧
    stuckState.active = (stuckState.inflight.length : Int) :=
  c5_active_bounds.2 (some tree0) 1 false stuckState stuckState (by decide)
    (Reaches.refl stuckState)

/-- C8: when a launched task fails, the handler decrements activeCount,
resolves the outcome with that error only when not already resolved
(first error wins; a failure after completion changes neither the flag nor
the outcome), performs no tick (queue and counters are untouched); and
once a failure has been observed (completed set), no later completion
launches new work: the queue is never popped again (it can only keep
leftover pushes from stragglers), activeCount only decreases, and the
outcome never changes. -/
theorem c8_failure_first_error_wins :
    (∀ fs limit dbg tf s i o e s',
      s.inflight.get? i = some (Job.job o) →
      execOp fs dbg o { s with inflight := s.inflight.eraseIdx i } = Except.error e →
      completeJob fs limit dbg tf s i = some s' →
      s'.active = s.active - 1 ∧ s'.queue = s.queue ∧ s'.files = s.files ∧
      s'.directories = s.directories ∧ s'.size = s.size ∧
      (s.completed = false → s'.completed = true ∧ s'.outcome = some (Except.error e)) ∧
      (s.completed = true → s'.completed = true ∧ s'.outcome = s.outcome)) ∧
    (∀ fs limit dbg tf s i s', s.completed = true →
      completeJob fs limit dbg tf s i = some s' →
      s'.completed = true ∧ s'.outcome = s.outcome ∧ s'.active = s.active - 1 ∧
      (∃ ext, s'.queue = s.queue ++ ext) ∧ s'.inflight.length + 1 = s.inflight.length) := by
  constructor
  · intro fs limit dbg tf s i o e s' hget hexec h
    unfold completeJob at h
    rw [hget] at h
    simp only [] at h
    rw [hexec] at h
    simp only [] at h
    cases h
    unfold failJob
    by_cases hc : s.completed = true
    · rw [if_pos hc]
      refine ⟨rfl, rfl, rfl, rfl, rfl, ?_, ?_⟩
      · intro hf
        rw [hf] at hc
        cases hc
      · intro _
        exact ⟨hc, rfl⟩
    · rw [if_neg hc]
      refine ⟨rfl, rfl, rfl, rfl, rfl, ?_, ?_⟩
      · intro _
        exact ⟨rfl, rfl⟩
      · intro ht
        exact absurd ht hc
  · intro fs limit dbg tf s i s' hc h
    exact completeJob_completed hc h

/-- Witness for C8: the root stat task failing on a missing root. -/
theorem c8_witness :
    failedState.active = stuckState.active - 1 ∧ failedState.queue = stuckState.queue ∧
    failedState.completed = true ∧
    failedState.outcome = some (Except.error (DuError.fsError [])) := by
  have h := c8_failure_first_error_wins.1 none 1 false 2 stuckState 0 (Op.statOp [])
    (DuError.fsError []) failedState rfl rfl rfl
  exact ⟨h.1, h.2.1, (h.2.2.2.2.2.1 rfl).1, (h.2.2.2.2.2.1 rfl).2⟩

/-- Against a missing root, every op execution fails: asyncStat and
asyncReaddir both reject on any path below a nonexistent root. -/
theorem execOp_none (dbg : Bool) (o : Op) (s : SchedState) :
    ∃ e, execOp none dbg o s = Except.error e := by
  cases o with
  | statOp p => exact ⟨DuError.fsError p, by simp [execOp]⟩
  | readOp p => exact ⟨DuError.fsError p, by simp [execOp]⟩

/-- tick preserves noOkInv (given the bookkeeping invariant): the success
resolution would need an empty queue and no active task, which noOkInv
rules out while the outcome is unresolved. -/
theorem tick_noOk {limit fuel : Nat} {s s' : SchedState} (hinv : schedInv limit s)
    (hno : noOkInv s) (h : tick limit fuel s = some s') : noOkInv s' := by
  induction fuel generalizing s with
  | zero => cases h
  | succ n ih =>
    rw [tick] at h
    by_cases hc : s.completed = true
    · rw [if_pos hc] at h
      cases h
      exact hno
    · rw [if_neg hc] at h
      by_cases hl : limit ≠ 0 ∧ (limit : Int) ≤ s.active
      · rw [if_pos hl] at h
        cases h
        exact hno
      · rw [if_neg hl] at h
        by_cases hd : s.active = 0 ∧ s.queue = []
        · exfalso
          have hout : s.outcome = none := by
            by_contra hne
            exact hc (hinv.2.2.mpr hne)
          rcases hno.1 hout with hq | hi
          · exact hq hd.2
          · have h1 := hinv.1
            have h0 := hd.1
            have : s.inflight.length = 0 := by omega
            exact hi (List.length_eq_zero.mp this)
        · rw [if_neg hd] at h
          have hbound : limit ≠ 0 → s.active + 1 ≤ (limit : Int) := by
            intro hl0
            have : ¬((limit : Int) ≤ s.active) := fun hle => hl ⟨hl0, hle⟩
            omega
          obtain ⟨h1, h2, h3⟩ := hinv
          split at h
          · refine ih ?_ ?_ h
            · exact ⟨by simp [h1], hbound, by simpa using h3⟩
            · exact ⟨fun _ => Or.inr (by simp), hno.2⟩
          · refine ih ?_ ?_ h
            · exact ⟨by simp [h1], hbound, by simpa using h3⟩
            · exact ⟨fun _ => Or.inr (by simp), hno.2⟩

/-- Against a missing root, task completion preserves noOkInv: every op
fails, so the outcome is only ever rejected, never resolved with a
report. -/
theorem completeJob_noOk {limit : Nat} {dbg : Bool} {tf c : Nat} {s s' : SchedState}
    (hinv : schedInv limit s) (hno : noOkInv s)
    (h : completeJob none limit dbg tf s c = some s') : noOkInv s' := by
  unfold completeJob at h
  split at h
  · cases h
  · rename_i hget
    cases h
    unfold failJob
    by_cases hc : s.completed = true
    · rw [if_pos hc]
      refine ⟨?_, hno.2⟩
      intro hout
      exact absurd hout (hinv.2.2.mp hc)
    · rw [if_neg hc]
      exact ⟨by simp, fun r => by simp⟩
  · rename_i o hget
    split at h
    · rename_i s₂ hexec
      obtain ⟨e, he⟩ := execOp_none dbg o { s with inflight := s.inflight.eraseIdx c }
      rw [he] at hexec
      cases hexec
    · cases h
      unfold failJob
      by_cases hc : s.completed = true
      · rw [if_pos hc]
        refine ⟨?_, hno.2⟩
        intro hout
        exact absurd hout (hinv.2.2.mp hc)
      · rw [if_neg hc]
        exact ⟨by simp, fun r => by simp⟩

/-- Against a missing root, both invariants survive a whole schedule. -/
theorem drive_noOk {limit : Nat} {dbg : Bool} {tf : Nat} {sched : List Nat}
    {s s' : SchedState} (hinv : schedInv limit s) (hno : noOkInv s)
    (h : drive none limit dbg tf sched s = some s') : noOkInv s' := by
  induction sched generalizing s with
  | nil =>
    unfold drive at h
    cases h
    exact hno
  | cons c cs ih =>
    unfold drive at h
    split at h
    · cases h
    · rename_i s₁ hc
      exact ih (completeJob_schedInv hinv hc) (completeJob_noOk hinv hno hc) h

/-- C7: against a nonexistent root path, no schedule and no limit ever
produce a Report: the outcome of any run is never a success.  At
parallelism 1 the run rejects with exactly the seeding stat's failure at
the root (the InvalidArgument case of the spec: the code surfaces the raw
filesystem error of the first inspect). -/
theorem c7_missing_root_no_report :
    (∀ limit dbg tf sched s r, diskUsage none limit dbg tf sched = some s →
      s.outcome ≠ some (Except.ok r)) ∧
    finalOutcome (diskUsage none 1 false 2 [0]) =
      some (some (Except.error (DuError.fsError []))) := by
  constructor
  · intro limit dbg tf sched s r h
    unfold diskUsage at h
    split at h
    · cases h
    · rename_i s₀ ht
      have hinv₀ : schedInv limit s₀ :=
        tick_schedInv ⟨by simp [initState], by simp [initState], by simp [initState]⟩ ht
      have hno₀ : noOkInv s₀ :=
        tick_noOk ⟨by simp [initState], by simp [initState], by simp [initState]⟩
          ⟨fun _ => Or.inl (by simp [initState]), by simp [initState]⟩ ht
      exact (drive_noOk hinv₀ hno₀ h).2 r
  · rfl

/-- Witness for C7: the concrete failed run at parallelism 1. -/
theorem c7_witness :
    failedState.outcome ≠
      some (Except.ok { parallelism := 1, maxActive := 0, size := 0, files := 0, directories := 0 }) :=
  c7_missing_root_no_report.1 1 false 2 [0] failedState
    { parallelism := 1, maxActive := 0, size := 0, files := 0, directories := 0 } rfl

/-- States equal after log erasure agree on every scheduler-visible
field. -/
theorem eraseLog_eq {s₁ s₂ : SchedState} (h : eraseLog s₁ = eraseLog s₂) :
    s₁.queue = s₂.queue ∧ s₁.inflight = s₂.inflight ∧ s₁.active = s₂.active ∧
    s₁.completed = s₂.completed ∧ s₁.outcome = s₂.outcome ∧ s₁.files = s₂.files ∧
    s₁.directories = s₂.directories ∧ s₁.size = s₂.size := by
  cases s₁
  cases s₂
  injection h with h1 h2 h3 h4 h5 h6 h7 h8 h9
  exact ⟨h1, h2, h3, h4, h5, h6, h7, h8⟩

/-- tick never reads or writes the log: it commutes with log erasure. -/
theorem tick_eraseLog {limit : Nat} (fuel : Nat) (s : SchedState) :
    tick limit fuel (eraseLog s) = Option.map eraseLog (tick limit fuel s) := by
  induction fuel generalizing s with
  | zero => rfl
  | succ n ih =>
    rw [tick, tick]
    by_cases hc : s.completed = true
    · rw [if_pos hc, if_pos (show (eraseLog s).completed = true from hc)]
      rfl
    · rw [if_neg hc, if_neg (show ¬(eraseLog s).completed = true from hc)]
      by_cases hl : limit ≠ 0 ∧ (limit : Int) ≤ s.active
      · rw [if_pos hl, if_pos (show limit ≠ 0 ∧ (limit : Int) ≤ (eraseLog s).active from hl)]
        rfl
      · rw [if_neg hl, if_neg (show ¬(limit ≠ 0 ∧ (limit : Int) ≤ (eraseLog s).active) from hl)]
        by_cases hd : s.active = 0 ∧ s.queue = []
        · rw [if_pos hd, if_pos (show (eraseLog s).active = 0 ∧ (eraseLog s).queue = [] from hd)]
          rfl
        · rw [if_neg hd, if_neg (show ¬((eraseLog s).active = 0 ∧ (eraseLog s).queue = []) from hd)]
          rcases hp : popLast s.queue with _ | ⟨rest, o⟩
          · simp only [show (eraseLog s).queue = s.queue from rfl, hp]
            exact ih { s with active := s.active + 1, inflight := s.inflight ++ [Job.undef] }
          · simp only [show (eraseLog s).queue = s.queue from rfl, hp]
            exact ih
              { s with
                queue := rest
                active := s.active + 1
                inflight := s.inflight ++ [Job.job o] }

/-- Op execution depends on the state only through its scheduler-visible
fields, and the debugLog flag only through the log: executions from
erase-equal states under different flags give erase-equal results. -/
theorem execOp_resp {fs : Option FsNode} {d₁ d₂ : Bool} {o : Op} {s₁ s₂ : SchedState}
    (h : eraseLog s₁ = eraseLog s₂) :
    Except.map eraseLog (execOp fs d₁ o s₁) = Except.map eraseLog (execOp fs d₂ o s₂) := by
  obtain ⟨hq, hi, ha, hc, ho, hf, hd, hs⟩ := eraseLog_eq h
  cases o with
  | statOp p =>
    rcases hfb : fs.bind (fun t => lookup t p) with _ | nd
    · simp only [execOp, hfb]
    · cases nd <;> simp only [execOp, hfb, Except.map] <;>
        simp [eraseLog, hq, hi, ha, hc, ho, hf, hd, hs]
  | readOp p =>
    rcases hfb : fs.bind (fun t => lookup t p) with _ | nd
    · simp only [execOp, hfb]
    · cases nd with
      | file sz => simp only [execOp, hfb]
      | dir es =>
        simp only [execOp, hfb, Except.map]
        simp [eraseLog, hq, hi, ha, hc, ho, hf, hd, hs]
      | other => simp only [execOp, hfb]

/-- The failure handler commutes with log erasure on erase-equal states. -/
theorem failJob_resp {e : DuError} {s₁ s₂ : SchedState} (h : eraseLog s₁ = eraseLog s₂) :
    eraseLog (failJob e s₁) = eraseLog (failJob e s₂) := by
  obtain ⟨hq, hi, ha, hc, ho, hf, hd, hs⟩ := eraseLog_eq h
  unfold failJob
  rw [hc]
  by_cases hcc : s₂.completed = true
  · rw [if_pos hcc, if_pos hcc]
    simp [eraseLog, hq, hi, ha, hc, ho, hf, hd, hs]
  · rw [if_neg hcc, if_neg hcc]
    simp [eraseLog, hq, hi, ha, hc, ho, hf, hd, hs]

/-- Task completion under different debugLog flags from erase-equal states
yields erase-equal results: the callback changes no scheduling decision. -/
theorem completeJob_resp {fs : Option FsNode} {limit : Nat} {d₁ d₂ : Bool} {tf c : Nat}
    {s₁ s₂ : SchedState} (h : eraseLog s₁ = eraseLog s₂) :
    Option.map eraseLog (completeJob fs limit d₁ tf s₁ c) =
    Option.map eraseLog (completeJob fs limit d₂ tf s₂ c) := by
  obtain ⟨hq, hi, ha, hc, ho, hf, hd, hs⟩ := eraseLog_eq h
  have h' : eraseLog { s₁ with inflight := s₂.inflight.eraseIdx c } =
      eraseLog { s₂ with inflight := s₂.inflight.eraseIdx c } := by
    simp [eraseLog, hq, ha, hc, ho, hf, hd, hs]
  unfold completeJob
  rw [hi]
  rcases hg : s₂.inflight.get? c with _ | j
  · simp only [hg]
  · cases j with
    | undef =>
      simp only [hg, Option.map]
      exact congrArg some (failJob_resp h')
    | job o =>
      simp only [hg]
      have hex := @execOp_resp fs d₁ d₂ o _ _ h'
      rcases he₁ : execOp fs d₁ o { s₁ with inflight := s₂.inflight.eraseIdx c } with e₁ | t₁ <;>
        rcases he₂ : execOp fs d₂ o { s₂ with inflight := s₂.inflight.eraseIdx c } with e₂ | t₂ <;>
        rw [he₁, he₂] at hex <;> simp only [Except.map] at hex
      · cases hex
        simp only [Option.map]
        exact congrArg some (failJob_resp h')
      · cases hex
      · cases hex
      · have ht : eraseLog t₁ = eraseLog t₂ := by
          injection hex
        obtain ⟨gq, gi, ga, gc, go, gf, gd, gs⟩ := eraseLog_eq ht
        have h₂ : eraseLog { t₁ with active := t₁.active - 1 } =
            eraseLog { t₂ with active := t₂.active - 1 } := by
          simp [eraseLog, gq, gi, ga, gc, go, gf, gd, gs]
        calc Option.map eraseLog (tick limit tf { t₁ with active := t₁.active - 1 })
            = tick limit tf (eraseLog { t₁ with active := t₁.active - 1 }) :=
              (tick_eraseLog tf _).symm
          _ = tick limit tf (eraseLog { t₂ with active := t₂.active - 1 }) := by rw [h₂]
          _ = Option.map eraseLog (tick limit tf { t₂ with active := t₂.active - 1 }) :=
              tick_eraseLog tf _

/-- Whole schedules under different debugLog flags from erase-equal states
end in erase-equal states. -/
theorem drive_resp {fs : Option FsNode} {limit : Nat} {d₁ d₂ : Bool} {tf : Nat}
    {sched : List Nat} {s₁ s₂ : SchedState} (h : eraseLog s₁ = eraseLog s₂) :
    Option.map eraseLog (drive fs limit d₁ tf sched s₁) =
    Option.map eraseLog (drive fs limit d₂ tf sched s₂) := by
  induction sched generalizing s₁ s₂ with
  | nil =>
    unfold drive
    simpa using h
  | cons c cs ih =>
    unfold drive
    have hcj := @completeJob_resp fs limit d₁ d₂ tf c _ _ h
    rcases h₁ : completeJob fs limit d₁ tf s₁ c with _ | t₁
    · rcases h₂ : completeJob fs limit d₂ tf s₂ c with _ | t₂
      · simp only [h₁, h₂]
      · rw [h₁, h₂] at hcj
        simp only [Option.map] at hcj
        cases hcj
    · rcases h₂ : completeJob fs limit d₂ tf s₂ c with _ | t₂
      · rw [h₁, h₂] at hcj
        simp only [Option.map] at hcj
        cases hcj
      · simp only [h₁, h₂]
        rw [h₁, h₂] at hcj
        simp only [Option.map] at hcj
        exact ih (by injection hcj)

/-- C9: the debugLog callback never affects scheduling or the result.  For
every filesystem, limit, tick fuel and schedule, a run with the callback
supplied and one with it absent go through the same scheduler states
(after erasing the log trace, the only field the callback touches) and in
particular return the same outcome. -/
theorem c9_debuglog_no_interference (fs : Option FsNode) (limit : Nat) (tf : Nat)
    (sched : List Nat) :
    Option.map eraseLog (diskUsage fs limit true tf sched) =
      Option.map eraseLog (diskUsage fs limit false tf sched) ∧
    finalOutcome (diskUsage fs limit true tf sched) =
      finalOutcome (diskUsage fs limit false tf sched) := by
  have key : Option.map eraseLog (diskUsage fs limit true tf sched) =
      Option.map eraseLog (diskUsage fs limit false tf sched) := by
    unfold diskUsage
    rcases ht : tick limit tf initState with _ | s₀
    · simp only [ht]
    · simp only [ht]
      exact drive_resp rfl
  refine ⟨key, ?_⟩
  unfold finalOutcome
  have : ∀ x : Option SchedState,
      x.map (fun st => st.outcome) = (x.map eraseLog).map (fun st => st.outcome) := by
    intro x
    cases x <;> rfl
  rw [this (diskUsage fs limit true tf sched), this (diskUsage fs limit false tf sched), key]

theorem Totals.add_files (a b : Totals) : (Totals.add a b).files = a.files + b.files := rfl

theorem Totals.add_directories (a b : Totals) :
    (Totals.add a b).directories = a.directories + b.directories := rfl

theorem Totals.add_size (a b : Totals) : (Totals.add a b).size = a.size + b.size := rfl

/-- Popping the last element decomposes the list. -/
theorem popLast_eq_append {α : Type} :
    ∀ {q rest : List α} {a : α}, popLast q = some (rest, a) → q = rest ++ [a] := by
  intro q
  induction q with
  | nil => intro rest a h; cases h
  | cons x xs ih =>
    intro rest a h
    cases xs with
    | nil =>
      cases h
      rfl
    | cons y ys =>
      rw [popLast] at h
      rcases hp : popLast (y :: ys) with _ | ⟨rs, b⟩
      · rw [hp] at h
        cases h
      · rw [hp] at h
        cases h
        rw [ih hp]
        rfl

/-- A nonempty list has a last element to pop. -/
theorem popLast_isSome {α : Type} :
    ∀ {q : List α}, q ≠ [] → ∃ rest a, popLast q = some (rest, a) := by
  intro q
  induction q with
  | nil => intro h; exact absurd rfl h
  | cons x xs ih =>
    intro _
    cases xs with
    | nil => exact ⟨[], x, rfl⟩
    | cons y ys =>
      obtain ⟨rs, b, hp⟩ := ih (by simp)
      exact ⟨x :: rs, b, by rw [popLast, hp]⟩

theorem queueW_append (t : FsNode) (a b : List Op) :
    queueW t (a ++ b) = queueW t a + queueW t b := by
  induction a with
  | nil => simp [queueW]
  | cons o rest ih => simp [queueW, ih]; omega

theorem queueYield_files_append (t : FsNode) (a b : List Op) :
    (queueYield t (a ++ b)).files = (queueYield t a).files + (queueYield t b).files := by
  induction a with
  | nil => simp [queueYield]
  | cons o rest ih => simp [queueYield, Totals.add_files, ih]; omega

theorem queueYield_directories_append (t : FsNode) (a b : List Op) :
    (queueYield t (a ++ b)).directories =
      (queueYield t a).directories + (queueYield t b).directories := by
  induction a with
  | nil => simp [queueYield]
  | cons o rest ih => simp [queueYield, Totals.add_directories, ih]; omega

theorem queueYield_size_append (t : FsNode) (a b : List Op) :
    (queueYield t (a ++ b)).size = (queueYield t a).size + (queueYield t b).size := by
  induction a with
  | nil => simp [queueYield]
  | cons o rest ih => simp [queueYield, Totals.add_size, ih]; omega

theorem validQueue_append {t : FsNode} {a b : List Op} (ha : validQueue t a = true)
    (hb : validQueue t b = true) : validQueue t (a ++ b) = true := by
  unfold validQueue at *
  rw [List.all_append, ha, hb]
  rfl

/-- Path concatenation composes lookups. -/
theorem lookup_append :
    ∀ (p : List String) (t u : FsNode) (q : List String), lookup t p = some u →
      lookup t (p ++ q) = lookup u q := by
  intro p
  induction p with
  | nil =>
    intro t u q h
    rw [lookup] at h
    cases h
    rfl
  | cons n rest ih =>
    intro t u q h
    cases t with
    | file sz => cases h
    | other => cases h
    | dir es =>
      rw [lookup] at h
      rcases hf : findEntry es n with _ | c
      · rw [hf] at h
        cases h
      · rw [hf] at h
        have : lookup (FsNode.dir es) ((n :: rest) ++ q) = lookup c (rest ++ q) := by
          rw [show (n :: rest) ++ q = n :: (rest ++ q) from rfl, lookup, hf]
        rw [this]
        exact ih c u q h

/-- A found entry of a well-formed listing is itself well-formed. -/
theorem wf_findEntry : ∀ {es : Entries} {n : String} {c : FsNode},
    wfEntries es = true → findEntry es n = some c → wf c = true := by
  intro es
  induction es using entriesInduction with
  | hnil =>
    intro n c _ h
    cases h
  | hcons m d rest ih =>
    intro n c hwf h
    rw [wfEntries, Bool.and_eq_true] at hwf
    obtain ⟨h1, h2⟩ := hwf
    rw [findEntry] at h
    by_cases hnm : (n == m) = true
    · rw [if_pos hnm] at h
      cases h
      exact h1
    · rw [if_neg hnm] at h
      exact ih h2 h

/-- Subtrees of a well-formed tree are well-formed. -/
theorem wf_lookup : ∀ (p : List String) {t u : FsNode}, wf t = true →
    lookup t p = some u → wf u = true := by
  intro p
  induction p with
  | nil =>
    intro t u hw h
    rw [lookup] at h
    cases h
    exact hw
  | cons n rest ih =>
    intro t u hw h
    cases t with
    | file sz => cases h
    | other => cases h
    | dir es =>
      rw [lookup] at h
      rcases hf : findEntry es n with _ | c
      · rw [hf] at h
        cases h
      · rw [hf] at h
        rw [wf, Bool.and_eq_true] at hw
        exact ih (wf_findEntry hw.2 hf) h

/-- Prepending an entry whose name is absent from a listing does not change
what findEntry returns for that listing's entries. -/
theorem allFound_extend {es : Entries} (n : String) (c : FsNode) :
    ∀ {es' : Entries}, keyMem n es' = false → allFound es es' →
      allFound (Entries.cons n c es) es' := by
  intro es'
  induction es' using entriesInduction with
  | hnil =>
    intro _ _
    trivial
  | hcons m d rest ih =>
    intro hk hall
    rw [keyMem] at hk
    have hnm : (n == m) = false := by
      cases hx : (n == m)
      · rfl
      · rw [hx] at hk
        cases hk
    have hkrest : keyMem n rest = false := by
      cases hx : keyMem n rest
      · rfl
      · rw [hx, hnm] at hk
        cases hk
    obtain ⟨hf, hrest⟩ := hall
    refine ⟨?_, ih hkrest hrest⟩
    have hmn : (m == n) = false := by
      have hne : ¬(n = m) := by
        intro he
        rw [he] at hnm
        simp at hnm
      have : ¬(m = n) := fun he => hne he.symm
      simp [this]
    rw [findEntry, if_neg (by rw [hmn]; exact Bool.false_ne_true)]
    exact hf

/-- In a listing with pairwise distinct names every entry is found at its
own node. -/
theorem keysNodup_allFound : ∀ {es : Entries}, keysNodup es = true → allFound es es := by
  intro es
  induction es using entriesInduction with
  | hnil =>
    intro _
    trivial
  | hcons n c rest ih =>
    intro hnd
    rw [keysNodup, Bool.and_eq_true] at hnd
    obtain ⟨h1, h2⟩ := hnd
    have hk : keyMem n rest = false := by
      cases hke : keyMem n rest
      · rfl
      · rw [hke] at h1
        cases h1
    refine ⟨?_, allFound_extend n c hk (ih h2)⟩
    rw [findEntry]
    simp

/-- Found entries resolve below the parent path. -/
theorem entriesFound_of_allFound {t : FsNode} {p : List String} {es : Entries}
    (hlk : lookup t p = some (FsNode.dir es)) :
    ∀ {es' : Entries}, allFound es es' → entriesFound t p es' := by
  intro es'
  induction es' using entriesInduction with
  | hnil =>
    intro _
    trivial
  | hcons n c rest ih =>
    rintro ⟨hf, hrest⟩
    refine ⟨?_, ih hrest⟩
    rw [lookup_append p t (FsNode.dir es) [n] hlk]
    simp only [lookup, hf]

/-- In a well-formed tree, the children listed by a directory all resolve
below the directory's path. -/
theorem entriesFound_full {t : FsNode} {p : List String} {es : Entries}
    (hwf : wf t = true) (hlk : lookup t p = some (FsNode.dir es)) :
    entriesFound t p es := by
  have hw : wf (FsNode.dir es) = true := wf_lookup p hwf hlk
  rw [wf, Bool.and_eq_true] at hw
  exact entriesFound_of_allFound hlk (keysNodup_allFound hw.1)

/-- The statOp items a readOp enqueues are valid, jointly yield exactly the
listing's totals, and jointly trigger exactly the listing's completion
count. -/
theorem statsOf_spec {t : FsNode} {p : List String} :
    ∀ {es' : Entries}, entriesFound t p es' →
      validQueue t (execOp.statsOf p es') = true ∧
      (queueYield t (execOp.statsOf p es')).files = (totalsEntries es').files ∧
      (queueYield t (execOp.statsOf p es')).directories = (totalsEntries es').directories ∧
      (queueYield t (execOp.statsOf p es')).size = (totalsEntries es').size ∧
      queueW t (execOp.statsOf p es') = entriesW es' := by
  intro es'
  induction es' using entriesInduction with
  | hnil =>
    intro _
    exact ⟨rfl, rfl, rfl, rfl, rfl⟩
  | hcons n c rest ih =>
    rintro ⟨hf, hrest⟩
    obtain ⟨v, f, d, z, w⟩ := ih hrest
    refine ⟨?_, ?_, ?_, ?_, ?_⟩
    · unfold validQueue at v ⊢
      rw [execOp.statsOf, List.all_cons, v]
      simp [validOp, hf]
    · rw [execOp.statsOf, queueYield, Totals.add_files, totalsEntries, Totals.add_files, f]
      simp [opYield, hf]
    · rw [execOp.statsOf, queueYield, Totals.add_directories, totalsEntries,
        Totals.add_directories, d]
      simp [opYield, hf]
    · rw [execOp.statsOf, queueYield, Totals.add_size, totalsEntries, Totals.add_size, z]
      simp [opYield, hf]
    · rw [execOp.statsOf, queueW, entriesW, w]
      simp [opW, hf]

/-- Specification of a valid op's execution against an existing, well-formed
tree: it succeeds, appends only valid follow-up items to the queue, keeps
the conservation law (new counters plus yield of the new items equal old
counters plus yield of the executed item), triggers exactly one completion
itself (the exact-count law for the weight), and leaves the in-flight
bookkeeping, flag and outcome alone. -/
theorem execOp_spec {t : FsNode} {dbg : Bool} {o : Op} (s : SchedState)
    (hwf : wf t = true) (hv : validOp t o = true) :
    ∃ s₂ newOps, execOp (some t) dbg o s = Except.ok s₂ ∧
      s₂.queue = s.queue ++ newOps ∧ validQueue t newOps = true ∧
      s₂.files + (queueYield t newOps).files = s.files + (opYield t o).files ∧
      s₂.directories + (queueYield t newOps).directories =
        s.directories + (opYield t o).directories ∧
      s₂.size + (queueYield t newOps).size = s.size + (opYield t o).size ∧
      queueW t newOps + 1 = opW t o ∧
      s₂.inflight = s.inflight ∧ s₂.active = s.active ∧ s₂.completed = s.completed ∧
      s₂.outcome = s.outcome := by
  cases o with
  | statOp p =>
    rw [validOp] at hv
    rcases hlk : lookup t p with _ | u
    · rw [hlk] at hv
      cases hv
    · have hfb : (some t).bind (fun v => lookup v p) = some u := by simp [hlk]
      cases u with
      | file sz =>
        have hexec : execOp (some t) dbg (Op.statOp p) s = Except.ok
            { s with
              files := s.files + 1
              size := s.size + sz
              log :=
                if dbg then
                  s.log ++ [{ op := "STAT", path := p, info := toString sz ++ " bytes" }]
                else s.log } := by
          simp only [execOp, hfb]
        refine ⟨_, [], hexec, by simp, rfl, ?_, ?_, ?_, ?_, rfl, rfl, rfl, rfl⟩
        · simp [queueYield, opYield, hlk, totals]
        · simp [queueYield, opYield, hlk, totals]
        · simp [queueYield, opYield, hlk, totals]
        · simp [queueW, opW, hlk, nodeW]
      | other =>
        have hexec : execOp (some t) dbg (Op.statOp p) s = Except.ok
            { s with
              log := if dbg then s.log ++ [{ op := "STAT", path := p, info := "---" }] else s.log } := by
          simp only [execOp, hfb]
        refine ⟨_, [], hexec, by simp, rfl, ?_, ?_, ?_, ?_, rfl, rfl, rfl, rfl⟩
        · simp [queueYield, opYield, hlk, totals]
        · simp [queueYield, opYield, hlk, totals]
        · simp [queueYield, opYield, hlk, totals]
        · simp [queueW, opW, hlk, nodeW]
      | dir es =>
        have hexec : execOp (some t) dbg (Op.statOp p) s = Except.ok
            { s with
              directories := s.directories + 1
              queue := s.queue ++ [Op.readOp p]
              log :=
                if dbg then s.log ++ [{ op := "STAT", path := p, info := "DIR" }] else s.log } := by
          simp only [execOp, hfb]
        refine ⟨_, [Op.readOp p], hexec, rfl, ?_, ?_, ?_, ?_, ?_, rfl, rfl, rfl, rfl⟩
        · simp [validQueue, validOp, hlk]
        · simp [queueYield, opYield, hlk, totals, Totals.add_files]
        · simp [queueYield, opYield, hlk, totals, Totals.add_directories]
          omega
        · simp [queueYield, opYield, hlk, totals, Totals.add_size]
        · simp [queueW, opW, hlk, nodeW]
          omega
  | readOp p =>
    rw [validOp] at hv
    rcases hlk : lookup t p with _ | u
    · rw [hlk] at hv
      cases hv
    · rw [hlk] at hv
      cases u with
      | file sz => cases hv
      | other => cases hv
      | dir es =>
        have hfb : (some t).bind (fun v => lookup v p) = some (FsNode.dir es) := by
          simp [hlk]
        obtain ⟨v, f, d, z, w⟩ := statsOf_spec (entriesFound_full hwf hlk)
        have hexec : execOp (some t) dbg (Op.readOp p) s = Except.ok
            { s with
              log :=
                if dbg then
                  s.log ++ [{ op := "READ", path := p, info := toString (entriesLength es) ++ " items" }]
                else s.log
              queue := s.queue ++ execOp.statsOf p es } := by
          simp only [execOp, hfb]
        refine ⟨_, execOp.statsOf p es, hexec, rfl, v, ?_, ?_, ?_, ?_, rfl, rfl, rfl, rfl⟩
        · simp [f, opYield, hlk]
        · simp [d, opYield, hlk]
        · simp [z, opYield, hlk]
        · simp [w, opW, hlk]
          omega

/-- Splitting validity of a queue decomposed by popLast. -/
theorem validQueue_split {t : FsNode} {a : List Op} {o : Op}
    (h : validQueue t (a ++ [o]) = true) : validQueue t a = true ∧ validOp t o = true := by
  unfold validQueue at h ⊢
  rw [List.all_append, Bool.and_eq_true] at h
  refine ⟨h.1, ?_⟩
  have h2 := h.2
  rw [List.all_cons, Bool.and_eq_true] at h2
  exact h2.1

/-- Every work item triggers at least its own completion. -/
theorem opW_pos (t : FsNode) (o : Op) : 1 ≤ opW t o := by
  cases o with
  | statOp p =>
    rcases hlk : lookup t p with _ | u
    · simp [opW, hlk]
    · cases u <;> (simp only [opW, hlk, nodeW]; omega)
  | readOp p =>
    rcases hlk : lookup t p with _ | u
    · simp [opW, hlk]
    · cases u <;> (simp only [opW, hlk]; omega)

/-- The drained run at parallelism 1: from a launched state (exactly one
valid item in flight, a valid queue, ceiling reached), the forced schedule
of exactly opW + queueW completions ends with the outcome resolved to the
report whose counters are the current counters plus everything the
in-flight item and the queue will yield.  This is the conservation
invariant of the traversal. -/
theorem drive1_run (t : FsNode) (dbg : Bool) (hwf : wf t = true) :
    ∀ (N : Nat) (s : SchedState) (o : Op) (q : List Op),
      validOp t o = true → validQueue t q = true → opW t o + queueW t q = N →
      s.inflight = [Job.job o] → s.queue = q → s.active = 1 →
      s.completed = false → s.outcome = none →
      Option.map SchedState.outcome
          (drive (some t) 1 dbg 2 (List.replicate N 0) s) =
        some (some (Except.ok
          { parallelism := 1
            maxActive := 0
            size := s.size + (opYield t o).size + (queueYield t q).size
            files := s.files + (opYield t o).files + (queueYield t q).files
            directories :=
              s.directories + (opYield t o).directories + (queueYield t q).directories })) := by
  intro N
  induction N with
  | zero =>
    intro s o q hvo hvq hN _ _ _ _ _
    exfalso
    have := opW_pos t o
    omega
  | succ n ih =>
    intro s o q hvo hvq hN hinf hq ha hc hout
    obtain ⟨s₂, newOps, hexec, hq2, hvnew, hf2, hd2, hz2, hw2, hinf2, ha2, hc2, hout2⟩ :=
      @execOp_spec t dbg o { s with inflight := [] } hwf hvo
    have hcomp : completeJob (some t) 1 dbg 2 s 0 =
        tick 1 2 { s₂ with active := s₂.active - 1 } := by
      unfold completeJob
      rw [hinf]
      simp only [List.get?_cons_zero, List.eraseIdx_cons_zero, hexec]
    have hs2q : s₂.queue = q ++ newOps := by
      have : s₂.queue = s.queue ++ newOps := hq2
      rw [this, hq]
    have hs2a : s₂.active = 1 := by
      have : s₂.active = s.active := ha2
      rw [this, ha]
    have hs2c : s₂.completed = false := by
      have : s₂.completed = s.completed := hc2
      rw [this, hc]
    have hs2o : s₂.outcome = none := by
      have : s₂.outcome = s.outcome := hout2
      rw [this, hout]
    have hs2i : s₂.inflight = [] := hinf2
    have hf2' : s₂.files + (queueYield t newOps).files = s.files + (opYield t o).files := hf2
    have hd2' : s₂.directories + (queueYield t newOps).directories =
        s.directories + (opYield t o).directories := hd2
    have hz2' : s₂.size + (queueYield t newOps).size = s.size + (opYield t o).size := hz2
    rcases hqe : q ++ newOps with _ | ⟨x, xs⟩
    · -- everything drained: the tick resolves the outcome
      have hq0 : q = [] := by
        cases q with
        | nil => rfl
        | cons a as => cases hqe
      have hn0 : newOps = [] := by
        rw [hq0] at hqe
        simpa using hqe
      have htick : tick 1 2 { s₂ with active := s₂.active - 1 } =
          some { s₂ with
            active := s₂.active - 1
            completed := true
            outcome := some (Except.ok
              { parallelism := 1, maxActive := 0, size := s₂.size, files := s₂.files,
                directories := s₂.directories }) } := by
        rw [tick]
        rw [if_neg (by simp [hs2c])]
        rw [if_neg (by simp [hs2a])]
        rw [if_pos (⟨by simp [hs2a], by simp [hs2q, hqe]⟩ :
          ({ s₂ with active := s₂.active - 1 } : SchedState).active = 0 ∧
            ({ s₂ with active := s₂.active - 1 } : SchedState).queue = [])]
      have hnval : n = 0 := by
        rw [hq0] at hN
        rw [hn0] at hw2
        simp [queueW] at hN hw2
        omega
      rw [hnval]
      simp only [List.replicate_succ, List.replicate]
      unfold drive
      rw [hcomp, htick]
      unfold drive
      simp only [Option.map]
      rw [hn0] at hf2' hd2' hz2'
      rw [hq0]
      simp only [queueYield] at hf2' hd2' hz2' ⊢
      have e1 : s₂.size = s.size + (opYield t o).size + 0 := by omega
      have e2 : s₂.files = s.files + (opYield t o).files + 0 := by omega
      have e3 : s₂.directories = s.directories + (opYield t o).directories + 0 := by omega
      rw [e1, e2, e3]
    · -- queue still nonempty: the tick launches the next item
      obtain ⟨rest, o₂, hpop⟩ := popLast_isSome (q := x :: xs) (by simp)
      have hdec : q ++ newOps = rest ++ [o₂] := by
        rw [hqe]
        exact popLast_eq_append hpop
      have htick : tick 1 2 { s₂ with active := s₂.active - 1 } =
          some { s₂ with
            queue := rest
            active := s₂.active - 1 + 1
            inflight := s₂.inflight ++ [Job.job o₂] } := by
        rw [tick]
        rw [if_neg (by simp [hs2c])]
        rw [if_neg (by simp [hs2a])]
        rw [if_neg (by rintro ⟨_, hqq⟩; rw [show ({ s₂ with active := s₂.active - 1 } :
          SchedState).queue = s₂.queue from rfl, hs2q, hqe] at hqq; cases hqq)]
        rw [show ({ s₂ with active := s₂.active - 1 } : SchedState).queue = x :: xs from by
          rw [show ({ s₂ with active := s₂.active - 1 } : SchedState).queue = s₂.queue from rfl,
            hs2q, hqe]]
        simp only [hpop]
        rw [tick]
        rw [if_neg (by simp [hs2c])]
        simp [hs2a]
      have hvsplit := validQueue_split (t := t) (a := rest) (o := o₂)
        (by rw [← hdec]; exact validQueue_append hvq hvnew)
      have hwrest : opW t o₂ + queueW t rest = n := by
        have h1 : queueW t (q ++ newOps) = queueW t (rest ++ [o₂]) := by rw [hdec]
        rw [queueW_append, queueW_append] at h1
        simp only [queueW] at h1
        omega
      have happ := ih { s₂ with
          queue := rest
          active := s₂.active - 1 + 1
          inflight := s₂.inflight ++ [Job.job o₂] } o₂ rest hvsplit.2 hvsplit.1 hwrest
        (by simp [hs2i]) rfl (by simp [hs2a]) (by simp [hs2c]) (by simp [hs2o])
      simp only [List.replicate_succ]
      unfold drive
      rw [hcomp, htick]
      rw [happ]
      have y1 : (opYield t o₂).files + (queueYield t rest).files =
          (queueYield t q).files + (queueYield t newOps).files := by
        have h1 : (queueYield t (q ++ newOps)).files = (queueYield t (rest ++ [o₂])).files := by
          rw [hdec]
        rw [queueYield_files_append, queueYield_files_append] at h1
        simp only [queueYield, Totals.add_files] at h1
        omega
      have y2 : (opYield t o₂).directories + (queueYield t rest).directories =
          (queueYield t q).directories + (queueYield t newOps).directories := by
        have h1 : (queueYield t (q ++ newOps)).directories =
            (queueYield t (rest ++ [o₂])).directories := by
          rw [hdec]
        rw [queueYield_directories_append, queueYield_directories_append] at h1
        simp only [queueYield, Totals.add_directories] at h1
        omega
      have y3 : (opYield t o₂).size + (queueYield t rest).size =
          (queueYield t q).size + (queueYield t newOps).size := by
        have h1 : (queueYield t (q ++ newOps)).size = (queueYield t (rest ++ [o₂])).size := by
          rw [hdec]
        rw [queueYield_size_append, queueYield_size_append] at h1
        simp only [queueYield, Totals.add_size] at h1
        omega
      have g1 : ({ s₂ with
          queue := rest
          active := s₂.active - 1 + 1
          inflight := s₂.inflight ++ [Job.job o₂] } : SchedState).size = s₂.size := rfl
      have g2 : ({ s₂ with
          queue := rest
          active := s₂.active - 1 + 1
          inflight := s₂.inflight ++ [Job.job o₂] } : SchedState).files = s₂.files := rfl
      have g3 : ({ s₂ with
          queue := rest
          active := s₂.active - 1 + 1
          inflight := s₂.inflight ++ [Job.job o₂] } : SchedState).directories =
        s₂.directories := rfl
      rw [g1, g2, g3]
      have e1 : s₂.size + (opYield t o₂).size + (queueYield t rest).size =
          s.size + (opYield t o).size + (queueYield t q).size := by omega
      have e2 : s₂.files + (opYield t o₂).files + (queueYield t rest).files =
          s.files + (opYield t o).files + (queueYield t q).files := by omega
      have e3 : s₂.directories + (opYield t o₂).directories + (queueYield t rest).directories =
          s.directories + (opYield t o).directories + (queueYield t q).directories := by omega
      rw [e1, e2, e3]

/-- C10: when the root path is a directory, the successful run counts the
root itself: at parallelism 1 (the only limit at which runs succeed) the
outcome is the report with directories equal to the number of directories
reachable in the tree, root included, hence at least 1; files and size are
the tree's totals as well.  The required schedule length is exactly the
tree's completion count. -/
theorem c10_root_directory_counted (es : Entries) (dbg : Bool)
    (hwf : wf (FsNode.dir es) = true) :
    finalOutcome (diskUsage (some (FsNode.dir es)) 1 dbg 2
        (List.replicate (nodeW (FsNode.dir es)) 0)) =
      some (some (Except.ok
        { parallelism := 1
          maxActive := 0
          size := (totals (FsNode.dir es)).size
          files := (totals (FsNode.dir es)).files
          directories := (totals (FsNode.dir es)).directories })) ∧
    1 ≤ (totals (FsNode.dir es)).directories := by
  constructor
  · have hstart : tick 1 2 initState = some stuckState := rfl
    have hw : opW (FsNode.dir es) (Op.statOp []) + queueW (FsNode.dir es) [] =
        nodeW (FsNode.dir es) := by
      simp [opW, lookup, queueW]
    have hdrive := drive1_run (FsNode.dir es) dbg hwf (nodeW (FsNode.dir es)) stuckState
      (Op.statOp []) [] (by simp [validOp, lookup]) rfl hw rfl rfl rfl rfl rfl
    have hy : opYield (FsNode.dir es) (Op.statOp []) = totals (FsNode.dir es) := by
      simp [opYield, lookup]
    rw [hy] at hdrive
    simp only [queueYield, show stuckState.size = 0 from rfl,
      show stuckState.files = 0 from rfl, show stuckState.directories = 0 from rfl,
      Nat.zero_add, Nat.add_zero] at hdrive
    simp only [diskUsage, finalOutcome, hstart]
    exact hdrive
  · simp only [totals]
    omega

/-- Witness for C10 at the concrete two-entry tree. -/
theorem c10_witness :
    wf (FsNode.dir tree6Entries) = true ∧
    (finalOutcome (diskUsage (some (FsNode.dir tree6Entries)) 1 false 2
        (List.replicate (nodeW (FsNode.dir tree6Entries)) 0)) =
      some (some (Except.ok
        { parallelism := 1
          maxActive := 0
          size := (totals (FsNode.dir tree6Entries)).size
          files := (totals (FsNode.dir tree6Entries)).files
          directories := (totals (FsNode.dir tree6Entries)).directories })) ∧
      1 ≤ (totals (FsNode.dir tree6Entries)).directories) :=
  ⟨rfl, c10_root_directory_counted tree6Entries false rfl⟩
